import Mathlib

/-!
Shallow embedding of `src/high-dim-pde/fbsde_raissi_eqx.py` (a Deep-BSDE
solver): the single Euler–Maruyama transition `FBSDEStep.__call__`, the
trajectory fold `NeuralFBSDE.__call__`, the batched loss `loss_fn`, and the
terminal condition `g_fn` / `dg_fn`.

External primitives are modelled as explicit parameters:
the trainable network `unet` (equinox MLP + `jax.vjp`, out of the core's
scope) is a function `ℝ → (Fin d → ℝ) → ℝ × (Fin d → ℝ)`; the standard
normal sampler `jax.random.normal` is a function `ℕ → Fin d → ℝ` of the
key token; `jax.random.split` is modelled as a collision-free binary token tree
on natural-number keys (child tokens `2k+1`, `2k+2`), the pure
deterministic-splitting abstraction.  State vectors live in `Fin d → ℝ`
and the one-element arrays of the source (`Y`, `y1_tilde`, `g_fn` output)
are real scalars.  The noise dimension equals the state dimension, as in
the source's default configuration (`noise_size = dim`, and the
element-wise products in the step force the two to coincide).
-/

noncomputable section

/-- Deterministic key splitting (`jax.random.split`): one token in, two fresh
tokens out, modelled as the two children of a node in an infinite binary
tree, so distinct derivation paths yield distinct tokens. -/
def split (k : ℕ) : ℕ × ℕ := (2 * k + 1, 2 * k + 2)

/-- The recurrence carry `(i, t0, dt, x0, y0, z0, key)` threaded through
`jax.lax.scan` in the source. -/
structure Carry (d : ℕ) where
  i : ℕ
  t0 : ℝ
  dt : ℝ
  X : Fin d → ℝ
  Y : ℝ
  Z : Fin d → ℝ
  key : ℕ

/-- The per-step output tuple `(x1, y1_tilde, y1)` of `FBSDEStep.__call__`. -/
structure StepOut (d : ℕ) where
  x1 : Fin d → ℝ
  y_tilde : ℝ
  y1 : ℝ

/-- The data an `FBSDEStep` module closes over: the three SDE coefficient
functions (static fields in the source), the trainable value-and-gradient
oracle `unet` and the external standard-normal sampler. -/
structure Config (d : ℕ) where
  mu : ℝ → (Fin d → ℝ) → ℝ → (Fin d → ℝ) → Fin d → ℝ
  sigma : ℝ → (Fin d → ℝ) → ℝ → Fin d → ℝ
  phi : ℝ → (Fin d → ℝ) → ℝ → (Fin d → ℝ) → ℝ
  unet : ℝ → (Fin d → ℝ) → ℝ × (Fin d → ℝ)
  gauss : ℕ → Fin d → ℝ

/-- Replace only the oracle network of a configuration. -/
def Config.setUnet {d : ℕ} (C : Config d) (u : ℝ → (Fin d → ℝ) → ℝ × (Fin d → ℝ)) :
    Config d :=
  ⟨C.mu, C.sigma, C.phi, u, C.gauss⟩

/-- Replace only the normal sampler of a configuration. -/
def Config.setGauss {d : ℕ} (C : Config d) (g : ℕ → Fin d → ℝ) : Config d :=
  ⟨C.mu, C.sigma, C.phi, C.unet, g⟩

/-- Default drift `mu_fn(t, X, Y, Z) = 0` configured in `FBSDEStep.__init__`. -/
def mu_fn (d : ℕ) : ℝ → (Fin d → ℝ) → ℝ → (Fin d → ℝ) → Fin d → ℝ :=
  fun _ _ _ _ _ => 0

/-- Default diffusion `sigma_fn(t, X, Y) = 0.4 * X` configured in
`FBSDEStep.__init__`; it ignores `t` and `Y`. -/
def sigma_fn (d : ℕ) : ℝ → (Fin d → ℝ) → ℝ → Fin d → ℝ :=
  fun _ X _ j => 0.4 * X j

/-- Default generator `phi_fn(t, X, Y, Z) = 0.05 * (Y - sum(X * Z))`
configured in `FBSDEStep.__init__`. -/
def phi_fn (d : ℕ) : ℝ → (Fin d → ℝ) → ℝ → (Fin d → ℝ) → ℝ :=
  fun _ X Y Z => 0.05 * (Y - ∑ j, X j * Z j)

/-- Construction of an `FBSDEStep` (`FBSDEStep.__init__`): the default
coefficient bundle together with the given oracle and sampler. -/
def FBSDEStep.mk' (d : ℕ) (u : ℝ → (Fin d → ℝ) → ℝ × (Fin d → ℝ))
    (g : ℕ → Fin d → ℝ) : Config d :=
  ⟨mu_fn d, sigma_fn d, phi_fn d, u, g⟩

/-- One transition of the coupled FBSDE recurrence, `FBSDEStep.__call__`:
split the key, recompute `curr_t`/`next_t` from the step index, draw
`dW = normal(key) * sqrt(dt)`, advance `X` by Euler–Maruyama, form the
oracle-free estimate `y1_tilde`, query the oracle at `(next_t, x1)`, and
return the new carry and the output tuple. -/
def FBSDEStep.call {d : ℕ} (C : Config d) (c : Carry d) : Carry d × StepOut d :=
  let key := (split c.key).1
  let key2 := (split c.key).2
  let curr_t : ℝ := c.t0 + c.i * c.dt
  let next_t : ℝ := c.t0 + (c.i + 1) * c.dt
  let dW : Fin d → ℝ := fun j => C.gauss key j * Real.sqrt c.dt
  let x1 : Fin d → ℝ := fun j =>
    c.X j + C.mu curr_t c.X c.Y c.Z j * c.dt + C.sigma curr_t c.X c.Y j * dW j
  let y1_tilde : ℝ :=
    c.Y + C.phi curr_t c.X c.Y c.Z * c.dt + ∑ j, c.Z j * C.sigma curr_t c.X c.Y j * dW j
  let p := C.unet next_t x1
  (⟨c.i + 1, c.t0, c.dt, x1, p.1, p.2, key2⟩, ⟨x1, y1_tilde, p.1⟩)

/-- `jax.lax.scan` of the step function with `length = N` and no per-step
input: fold the transition `N` times, collecting the outputs in order. -/
def scanSteps {d : ℕ} (C : Config d) : ℕ → Carry d → Carry d × List (StepOut d)
  | 0, c => (c, [])
  | N + 1, c =>
    let s := FBSDEStep.call C c
    let r := scanSteps C N s.1
    (r.1, s.2 :: r.2)

/-- One trajectory, `NeuralFBSDE.__call__`: obtain `(y0, z0)` from the oracle
evaluated at time `jnp.zeros((1,))` (the literal zero of the source, not
`t0`) and state `x0`, build the initial carry, and scan the step
`num_timesteps` times. -/
def NeuralFBSDE.call {d : ℕ} (C : Config d) (x0 : Fin d → ℝ) (t0 dt : ℝ)
    (N : ℕ) (key : ℕ) : Carry d × List (StepOut d) :=
  let p := C.unet 0 x0
  scanSteps C N ⟨0, t0, dt, x0, p.1, p.2, key⟩

/-- Batched simulation: `jax.vmap(model, in_axes=(0, None, None, None, None,
None))(x0, t0, dt, num_timesteps, unroll, key)` — the batch axis ranges over
the rows of `x0` while `t0`, `dt`, `num_timesteps` and in particular the
PRNG `key` are broadcast unchanged to every batch member. -/
def batchedCall {d : ℕ} (C : Config d) (x0s : List (Fin d → ℝ)) (t0 dt : ℝ)
    (N : ℕ) (key : ℕ) : List (Carry d × List (StepOut d)) :=
  x0s.map fun x0 => NeuralFBSDE.call C x0 t0 dt N key

/-- Sum of squared errors `jnp.sum(jnp.square(y - y_pred))` over the entries
of two equally shaped arrays, here flattened to lists. -/
def sum_square_error (y y_pred : List ℝ) : ℝ :=
  ((y.zip y_pred).map fun p => (p.1 - p.2) ^ 2).sum

/-- Terminal condition `g_fn(X) = jnp.sum(X ** 2, axis=-1, keepdims=True)`,
a one-element array modelled as a real scalar. -/
def g_fn {d : ℕ} (X : Fin d → ℝ) : ℝ := ∑ j, X j ^ 2

/-- Gradient of the terminal condition, `dg_fn`: the source pulls back the
unit cotangent through `jax.vjp(g_fn, X)`, i.e. it forms the exact gradient
of `g_fn` at `X`; embedded as the Fréchet derivative of `g_fn` applied to
the coordinate directions. -/
def dg_fn {d : ℕ} (X : Fin d → ℝ) : Fin d → ℝ :=
  fun i => fderiv ℝ g_fn X (Pi.single i 1)

/-- Training loss `loss_fn` of `train_step`: run the batched simulation,
stack the per-step `y1_tilde` and `y1` sequences, take the final carries'
`X`, `Y`, `Z`, and add the three `sum_square_error` terms of the source. -/
def loss_fn {d : ℕ} (C : Config d) (x0s : List (Fin d → ℝ)) (t0 dt : ℝ)
    (N : ℕ) (key : ℕ) : ℝ :=
  let out := batchedCall C x0s t0 dt N key
  let y_tilde_list : List ℝ := (out.map fun m => m.2.map StepOut.y_tilde).flatten
  let y_list : List ℝ := (out.map fun m => m.2.map StepOut.y1).flatten
  let x_final : List (Fin d → ℝ) := out.map fun m => m.1.X
  let y_final : List ℝ := out.map fun m => m.1.Y
  let z_final : List (Fin d → ℝ) := out.map fun m => m.1.Z
  sum_square_error y_tilde_list y_list
    + sum_square_error y_final (x_final.map g_fn)
    + sum_square_error (z_final.map List.ofFn).flatten
        ((x_final.map fun x => List.ofFn (dg_fn x)).flatten)

/-- The carry key after `n` transitions: each step keeps the second child of
its incoming key. -/
def carriedKey : ℕ → ℕ → ℕ
  | 0, k => k
  | n + 1, k => (split (carriedKey n k)).2

/-- The key consumed by the Gaussian draw of step `n`: the first child of
that step's incoming carry key. -/
def consumedKey (n : ℕ) (k : ℕ) : ℕ := (split (carriedKey n k)).1

/-- Probe oracle: returns its time argument as the value and the zero vector
as the gradient, so it distinguishes the query times. -/
def probeUnet (d : ℕ) : ℝ → (Fin d → ℝ) → ℝ × (Fin d → ℝ) :=
  fun t _ => (t, fun _ => 0)

/-- Probe sampler: returns the key token as a real number, so it
distinguishes the underlying random streams. -/
def keyGauss (d : ℕ) : ℕ → Fin d → ℝ := fun k _ => (k : ℝ)

/-- Concrete probe model over dimension 1: the default coefficient bundle of
`FBSDEStep.__init__` with the probe oracle and probe sampler. -/
def Cprobe : Config 1 := FBSDEStep.mk' 1 (probeUnet 1) (keyGauss 1)

/-- Constant-one state vector in dimension 1. -/
def oneVec : Fin 1 → ℝ := fun _ => 1

/-- Constant-two state vector in dimension 1. -/
def twoVec : Fin 1 → ℝ := fun _ => 2

/-- A concrete carry over dimension 1. -/
def cEx : Carry 1 := ⟨0, 0, 1, oneVec, 0, oneVec, 0⟩

end

lemma scanSteps_succ_fst {d : ℕ} (C : Config d) (n : ℕ) (c : Carry d) :
    (scanSteps C (n + 1) c).1 = (scanSteps C n (FBSDEStep.call C c).1).1 := rfl

lemma scanSteps_fst_i {d : ℕ} (C : Config d) :
    ∀ (N : ℕ) (c : Carry d), (scanSteps C N c).1.i = c.i + N := by
  intro N
  induction N with
  | zero => intro c; rfl
  | succ n ih =>
    intro c
    rw [scanSteps_succ_fst, ih]
    show c.i + 1 + n = c.i + (n + 1)
    omega

lemma scanSteps_fst_t0 {d : ℕ} (C : Config d) :
    ∀ (N : ℕ) (c : Carry d), (scanSteps C N c).1.t0 = c.t0 := by
  intro N
  induction N with
  | zero => intro c; rfl
  | succ n ih =>
    intro c
    rw [scanSteps_succ_fst, ih]
    rfl

lemma scanSteps_fst_dt {d : ℕ} (C : Config d) :
    ∀ (N : ℕ) (c : Carry d), (scanSteps C N c).1.dt = c.dt := by
  intro N
  induction N with
  | zero => intro c; rfl
  | succ n ih =>
    intro c
    rw [scanSteps_succ_fst, ih]
    rfl

/-- C1: one call of `FBSDEStep.__call__` returns the Euler–Maruyama forward
state `x1 = X + mu(curr_t,X,Y,Z)·dt + sigma(curr_t,X,Y)⊙dW` and the tilde
value `y1_tilde = Y + phi(curr_t,X,Y,Z)·dt + Z·(sigma(curr_t,X,Y)⊙dW)`
(inner product over the dimension), with `curr_t = t0 + i·dt` and
`next_t = t0 + (i+1)·dt` recomputed from the step index `i`; the oracle is
queried only for `y1` at `(next_t, x1)`, and both `x1` and `y1_tilde` are
unchanged under replacing the oracle network, i.e. computed without it. -/
theorem fbsde_step_update {d : ℕ} (C : Config d) (c : Carry d) :
    (∀ j, (FBSDEStep.call C c).2.x1 j =
        c.X j + C.mu (c.t0 + c.i * c.dt) c.X c.Y c.Z j * c.dt
          + C.sigma (c.t0 + c.i * c.dt) c.X c.Y j
              * (C.gauss (split c.key).1 j * Real.sqrt c.dt))
    ∧ (FBSDEStep.call C c).2.y_tilde =
        c.Y + C.phi (c.t0 + c.i * c.dt) c.X c.Y c.Z * c.dt
          + ∑ j, c.Z j * C.sigma (c.t0 + c.i * c.dt) c.X c.Y j
              * (C.gauss (split c.key).1 j * Real.sqrt c.dt)
    ∧ (FBSDEStep.call C c).2.y1 =
        (C.unet (c.t0 + (c.i + 1) * c.dt) (FBSDEStep.call C c).2.x1).1
    ∧ (∀ u, (FBSDEStep.call (C.setUnet u) c).2.y_tilde = (FBSDEStep.call C c).2.y_tilde
          ∧ (FBSDEStep.call (C.setUnet u) c).2.x1 = (FBSDEStep.call C c).2.x1) :=
  ⟨fun _ => rfl, rfl, rfl, fun _ => ⟨rfl, rfl⟩⟩

/-- C6: each transition increases `step_index` by exactly 1 and leaves `t0`
and `dt` unchanged, and folding the transition `num_timesteps` times from
the initial carry built by `NeuralFBSDE.__call__` yields a final carry whose
`step_index` equals `num_timesteps` (with `t0`, `dt` still intact). -/
theorem step_index_advances {d : ℕ} (C : Config d) (c : Carry d)
    (x0 : Fin d → ℝ) (t0 dt : ℝ) (N : ℕ) (key : ℕ) :
    (FBSDEStep.call C c).1.i = c.i + 1
    ∧ (FBSDEStep.call C c).1.t0 = c.t0
    ∧ (FBSDEStep.call C c).1.dt = c.dt
    ∧ (NeuralFBSDE.call C x0 t0 dt N key).1.i = N
    ∧ (NeuralFBSDE.call C x0 t0 dt N key).1.t0 = t0
    ∧ (NeuralFBSDE.call C x0 t0 dt N key).1.dt = dt := by
  refine ⟨rfl, rfl, rfl, ?_, ?_, ?_⟩
  · show (scanSteps C N _).1.i = N
    rw [scanSteps_fst_i]
    exact Nat.zero_add N
  · exact scanSteps_fst_t0 C N _
  · exact scanSteps_fst_dt C N _

/-- C8: if the `sigma` coefficient is replaced by the zero function, the
tilde value produced by the transition is the deterministic Euler update
`Y + phi(curr_t, X, Y, Z)·dt`, and it is independent of the drawn `dW`
(replacing the normal sampler leaves it unchanged). -/
theorem zero_diffusion_tilde {d : ℕ}
    (mu : ℝ → (Fin d → ℝ) → ℝ → (Fin d → ℝ) → Fin d → ℝ)
    (phi : ℝ → (Fin d → ℝ) → ℝ → (Fin d → ℝ) → ℝ)
    (u : ℝ → (Fin d → ℝ) → ℝ × (Fin d → ℝ))
    (g g' : ℕ → Fin d → ℝ) (c : Carry d) :
    (FBSDEStep.call ⟨mu, fun _ _ _ _ => 0, phi, u, g⟩ c).2.y_tilde =
      c.Y + phi (c.t0 + c.i * c.dt) c.X c.Y c.Z * c.dt
    ∧ (FBSDEStep.call ⟨mu, fun _ _ _ _ => 0, phi, u, g'⟩ c).2.y_tilde =
      (FBSDEStep.call ⟨mu, fun _ _ _ _ => 0, phi, u, g⟩ c).2.y_tilde := by
  constructor
  · simp [FBSDEStep.call]
  · simp [FBSDEStep.call]

/-- C4 (counterexample): with the probe oracle (whose value is its time
argument) and `t0 = 1`, the initial `Y` of the trajectory (read off the
final carry of a zero-step run) is `0`, the oracle value at time `0`, and
differs from the oracle value `1` at `(t0, x0)`: the initial oracle
evaluation is not at `t0`. -/
theorem initial_oracle_not_at_t0 :
    (NeuralFBSDE.call Cprobe oneVec 1 1 0 0).1.Y = 0
    ∧ (Cprobe.unet 1 oneVec).1 = 1
    ∧ (NeuralFBSDE.call Cprobe oneVec 1 1 0 0).1.Y ≠ (Cprobe.unet 1 oneVec).1 := by
  refine ⟨rfl, rfl, ?_⟩
  rw [show (NeuralFBSDE.call Cprobe oneVec 1 1 0 0).1.Y = 0 from rfl,
    show (Cprobe.unet 1 oneVec).1 = 1 from rfl]
  norm_num

/-- C4 (amended): for every trajectory start, `NeuralFBSDE.__call__` builds
the initial carry with `step_index = 0`, `X = x0`, and `Y0, Z0` from one
oracle evaluation at time `0` (the literal `jnp.zeros((1,))` of the source,
which equals `t0` only when `t0 = 0`), and scans the transition from that
carry; a zero-step run returns exactly that initial carry. -/
theorem initial_carry_oracle_at_zero {d : ℕ} (C : Config d) (x0 : Fin d → ℝ)
    (t0 dt : ℝ) (N : ℕ) (key : ℕ) :
    NeuralFBSDE.call C x0 t0 dt N key
      = scanSteps C N ⟨0, t0, dt, x0, (C.unet 0 x0).1, (C.unet 0 x0).2, key⟩
    ∧ (NeuralFBSDE.call C x0 t0 dt 0 key).1
      = ⟨0, t0, dt, x0, (C.unet 0 x0).1, (C.unet 0 x0).2, key⟩ :=
  ⟨rfl, rfl⟩

/-- C7 (counterexample): with the non-positive time step `dt = 0`, trajectory
construction does not reject the configuration: the simulation runs and two
transitions execute (final `step_index = 2`). -/
theorem no_rejection_dt_zero :
    ¬ (0 : ℝ) > 0 ∧ (NeuralFBSDE.call Cprobe oneVec 0 0 2 0).1.i = 2 := by
  constructor
  · norm_num
  · show (scanSteps Cprobe 2 _).1.i = 2
    rw [scanSteps_fst_i]

/-- C7 (amended): no configuration validation is performed; even for a
non-positive `dt` the trajectory construction accepts the configuration and
folds the transition `num_timesteps` times (final `step_index` equals
`num_timesteps`), rather than rejecting before simulation. -/
theorem no_validation_runs_anyway {d : ℕ} (C : Config d) (x0 : Fin d → ℝ)
    (t0 dt : ℝ) (N : ℕ) (key : ℕ) (_h : dt ≤ 0) :
    (NeuralFBSDE.call C x0 t0 dt N key).1.i = N := by
  show (scanSteps C N _).1.i = N
  rw [scanSteps_fst_i]
  exact Nat.zero_add N

/-- Witness for C7's amended theorem at `dt = 0`, `N = 2`. -/
theorem no_validation_runs_anyway_witness :
    (NeuralFBSDE.call Cprobe oneVec 0 0 2 0).1.i = 2 :=
  no_validation_runs_anyway Cprobe oneVec 0 0 2 0 (le_refl 0)

lemma carriedKey_shift (n : ℕ) (k : ℕ) :
    carriedKey n ((split k).2) = carriedKey (n + 1) k := by
  induction n with
  | zero => rfl
  | succ m ih => show (split (carriedKey m ((split k).2))).2 = _; rw [ih]; rfl

lemma scanSteps_fst_key {d : ℕ} (C : Config d) :
    ∀ (N : ℕ) (c : Carry d), (scanSteps C N c).1.key = carriedKey N c.key := by
  intro N
  induction N with
  | zero => intro c; rfl
  | succ n ih =>
    intro c
    rw [scanSteps_succ_fst, ih]
    show carriedKey n ((split c.key).2) = _
    rw [carriedKey_shift]

lemma carriedKey_le (n : ℕ) (k : ℕ) : k ≤ carriedKey n k := by
  induction n with
  | zero => exact le_refl k
  | succ m ih =>
    show k ≤ 2 * carriedKey m k + 2
    omega

lemma carriedKey_strictMono (k : ℕ) : StrictMono fun n => carriedKey n k := by
  apply strictMono_nat_of_lt_succ
  intro n
  show carriedKey n k < 2 * carriedKey n k + 2
  omega

lemma consumedKey_eq (n : ℕ) (k : ℕ) :
    consumedKey n k = 2 * carriedKey n k + 1 := rfl

/-- C5: each transition splits the incoming key into exactly two tokens,
consumes the first for the Gaussian draw (the drawn `dW` entering `x1` is
`gauss` at `(split key).1`) and carries exactly the second forward; along a
trajectory the carry key after `N` steps is `carriedKey N key`, and the
tokens `consumedKey i key` used by distinct steps are pairwise distinct and
never coincide with any carried token, so no token is used by two steps and
the whole trajectory is a pure function of the initial token. -/
theorem key_split_discipline {d : ℕ} (C : Config d) (c : Carry d) (N : ℕ)
    (k : ℕ) (i j : ℕ) :
    (FBSDEStep.call C c).1.key = (split c.key).2
    ∧ ((FBSDEStep.call C c).2.x1 = fun m =>
        c.X m + C.mu (c.t0 + c.i * c.dt) c.X c.Y c.Z m * c.dt
          + C.sigma (c.t0 + c.i * c.dt) c.X c.Y m
              * (C.gauss (split c.key).1 m * Real.sqrt c.dt))
    ∧ (scanSteps C N c).1.key = carriedKey N c.key
    ∧ (i ≠ j → consumedKey i k ≠ consumedKey j k)
    ∧ consumedKey i k ≠ carriedKey j k := by
  refine ⟨rfl, rfl, scanSteps_fst_key C N c, ?_, ?_⟩
  · intro hij
    have h := (carriedKey_strictMono k).injective
    intro hc
    rw [consumedKey_eq, consumedKey_eq] at hc
    have hc2 : carriedKey i k = carriedKey j k := by omega
    exact hij (h hc2)
  · rw [consumedKey_eq]
    cases j with
    | zero =>
      have h := carriedKey_le i k
      show 2 * carriedKey i k + 1 ≠ k
      omega
    | succ m =>
      show 2 * carriedKey i k + 1 ≠ 2 * carriedKey m k + 2
      omega

/-- Witness for C5 at `i = 0`, `j = 1`, initial token `0`: the tokens
consumed by the first two steps differ, and neither equals the carried
token. -/
theorem key_split_discipline_witness :
    consumedKey 0 0 ≠ consumedKey 1 0 ∧ consumedKey 0 0 ≠ carriedKey 1 0 :=
  ⟨(key_split_discipline Cprobe cEx 1 0 0 1).2.2.2.1 (by decide),
   (key_split_discipline Cprobe cEx 1 0 0 1).2.2.2.2⟩

/-- C3 (counterexample): in one batched training-step simulation
(`jax.vmap` with the key broadcast), distinct batch members reuse the same
underlying random stream: with shared key `0`, both members of a two-member
one-step batch end with the same carry key `2`; two members with equal
initial states produce entirely identical trajectories; and a
single-trajectory run with a different seed (`1`) does not match the
batched member (its forward update uses a different draw: `2.2 ≠ 1.4`). -/
theorem batched_key_reuse_cex :
    ((batchedCall Cprobe [oneVec, twoVec] 0 1 1 0).map fun r => r.1.key) = [2, 2]
    ∧ batchedCall Cprobe [oneVec, oneVec] 0 1 1 0
        = [NeuralFBSDE.call Cprobe oneVec 0 1 1 0, NeuralFBSDE.call Cprobe oneVec 0 1 1 0]
    ∧ ((NeuralFBSDE.call Cprobe oneVec 0 1 1 1).2.map fun o => o.x1 0)
        ≠ ((NeuralFBSDE.call Cprobe oneVec 0 1 1 0).2.map fun o => o.x1 0) := by
  refine ⟨rfl, rfl, ?_⟩
  have hL : ((NeuralFBSDE.call Cprobe oneVec 0 1 1 1).2.map fun o => o.x1 0) = [(2.2 : ℝ)] := by
    simp [NeuralFBSDE.call, scanSteps, FBSDEStep.call, Cprobe, FBSDEStep.mk', probeUnet, keyGauss,
      oneVec, mu_fn, sigma_fn, phi_fn, split, Real.sqrt_one]
    norm_num
  have hR : ((NeuralFBSDE.call Cprobe oneVec 0 1 1 0).2.map fun o => o.x1 0) = [(1.4 : ℝ)] := by
    simp [NeuralFBSDE.call, scanSteps, FBSDEStep.call, Cprobe, FBSDEStep.mk', probeUnet, keyGauss,
      oneVec, mu_fn, sigma_fn, phi_fn, split, Real.sqrt_one]
    norm_num
  rw [hL, hR]
  intro h
  have := List.head_eq_of_cons_eq h
  norm_num at this

/-- C3 (amended): the batched simulation broadcasts the single key to every
batch member: it equals, member-for-member, single-trajectory simulations
each run with that same shared key, and every member's final carry key is
the same `carriedKey N key`, independent of the member's initial state —
batch members share one random stream rather than drawing from disjoint
ones. -/
theorem batched_equals_singles_shared_key {d : ℕ} (C : Config d)
    (x0s : List (Fin d → ℝ)) (t0 dt : ℝ) (N : ℕ) (key : ℕ) :
    batchedCall C x0s t0 dt N key
      = x0s.map (fun x0 => NeuralFBSDE.call C x0 t0 dt N key)
    ∧ ((batchedCall C x0s t0 dt N key).map fun r => r.1.key)
      = x0s.map fun _ => carriedKey N key := by
  refine ⟨rfl, ?_⟩
  have hk : ∀ x0 : Fin d → ℝ,
      (NeuralFBSDE.call C x0 t0 dt N key).1.key = carriedKey N key := by
    intro x0
    show (scanSteps C N _).1.key = _
    rw [scanSteps_fst_key]
  rw [batchedCall, List.map_map]
  exact List.map_congr_left fun a _ => hk a

lemma scan_default_forward_agree {d : ℕ}
    (u1 u2 : ℝ → (Fin d → ℝ) → ℝ × (Fin d → ℝ)) (g : ℕ → Fin d → ℝ) :
    ∀ (N : ℕ) (c1 c2 : Carry d), c1.i = c2.i → c1.t0 = c2.t0 → c1.dt = c2.dt →
      c1.X = c2.X → c1.key = c2.key →
      (scanSteps (FBSDEStep.mk' d u1 g) N c1).1.X
          = (scanSteps (FBSDEStep.mk' d u2 g) N c2).1.X
        ∧ ((scanSteps (FBSDEStep.mk' d u1 g) N c1).2.map StepOut.x1)
          = ((scanSteps (FBSDEStep.mk' d u2 g) N c2).2.map StepOut.x1) := by
  intro N
  induction N with
  | zero => intro c1 c2 _ _ _ hX _; exact ⟨hX, rfl⟩
  | succ n ih =>
    intro c1 c2 hi ht hd hX hk
    have hx1 : (FBSDEStep.call (FBSDEStep.mk' d u1 g) c1).2.x1
        = (FBSDEStep.call (FBSDEStep.mk' d u2 g) c2).2.x1 := by
      funext j
      show c1.X j + 0 * c1.dt + 0.4 * c1.X j * (g (split c1.key).1 j * Real.sqrt c1.dt)
        = c2.X j + 0 * c2.dt + 0.4 * c2.X j * (g (split c2.key).1 j * Real.sqrt c2.dt)
      rw [hX, hk, hd]
    have hi' : (FBSDEStep.call (FBSDEStep.mk' d u1 g) c1).1.i
        = (FBSDEStep.call (FBSDEStep.mk' d u2 g) c2).1.i := by
      show c1.i + 1 = c2.i + 1
      rw [hi]
    have hX' : (FBSDEStep.call (FBSDEStep.mk' d u1 g) c1).1.X
        = (FBSDEStep.call (FBSDEStep.mk' d u2 g) c2).1.X := hx1
    have hk' : (FBSDEStep.call (FBSDEStep.mk' d u1 g) c1).1.key
        = (FBSDEStep.call (FBSDEStep.mk' d u2 g) c2).1.key := by
      show (split c1.key).2 = (split c2.key).2
      rw [hk]
    obtain ⟨rX, rout⟩ := ih (FBSDEStep.call (FBSDEStep.mk' d u1 g) c1).1
      (FBSDEStep.call (FBSDEStep.mk' d u2 g) c2).1 hi' ht hd hX' hk'
    constructor
    · rw [scanSteps_succ_fst, scanSteps_succ_fst]
      exact rX
    · show (FBSDEStep.call (FBSDEStep.mk' d u1 g) c1).2.x1
          :: ((scanSteps (FBSDEStep.mk' d u1 g) n
                (FBSDEStep.call (FBSDEStep.mk' d u1 g) c1).1).2.map StepOut.x1)
        = (FBSDEStep.call (FBSDEStep.mk' d u2 g) c2).2.x1
          :: ((scanSteps (FBSDEStep.mk' d u2 g) n
                (FBSDEStep.call (FBSDEStep.mk' d u2 g) c2).1).2.map StepOut.x1)
      rw [hx1, rout]

/-- C10: under the default coefficient bundle of `FBSDEStep.__init__`
(`mu ≡ 0` and `sigma(t, X, Y) = 0.4·X`, which ignores `Y`), the forward
state sequence of `NeuralFBSDE.__call__` does not depend on the network:
two models built with different oracles but the same `x0`, `t0`, `dt`,
`num_timesteps` and initial key produce identical per-step `x1` sequences
and the same final carry `X`. -/
theorem forward_states_indep_of_oracle {d : ℕ}
    (u1 u2 : ℝ → (Fin d → ℝ) → ℝ × (Fin d → ℝ)) (g : ℕ → Fin d → ℝ)
    (x0 : Fin d → ℝ) (t0 dt : ℝ) (N : ℕ) (key : ℕ) :
    ((NeuralFBSDE.call (FBSDEStep.mk' d u1 g) x0 t0 dt N key).2.map StepOut.x1)
      = ((NeuralFBSDE.call (FBSDEStep.mk' d u2 g) x0 t0 dt N key).2.map StepOut.x1)
    ∧ (NeuralFBSDE.call (FBSDEStep.mk' d u1 g) x0 t0 dt N key).1.X
      = (NeuralFBSDE.call (FBSDEStep.mk' d u2 g) x0 t0 dt N key).1.X := by
  have h := scan_default_forward_agree u1 u2 g N
    ⟨0, t0, dt, x0, (u1 0 x0).1, (u1 0 x0).2, key⟩
    ⟨0, t0, dt, x0, (u2 0 x0).1, (u2 0 x0).2, key⟩ rfl rfl rfl rfl rfl
  exact ⟨h.2, h.1⟩

lemma g_fn_hasFDerivAt {d : ℕ} (X : Fin d → ℝ) :
    HasFDerivAt g_fn
      (∑ i, (2 * X i) • (ContinuousLinearMap.proj i : ((j : Fin d) → ℝ) →L[ℝ] ℝ)) X := by
  have h : ∀ i : Fin d, HasFDerivAt (fun x : Fin d → ℝ => x i ^ 2)
      ((2 * X i) • (ContinuousLinearMap.proj i : ((j : Fin d) → ℝ) →L[ℝ] ℝ)) X := by
    intro i
    have h1 : HasFDerivAt (fun x : Fin d → ℝ => x i)
        (ContinuousLinearMap.proj i : ((j : Fin d) → ℝ) →L[ℝ] ℝ) X :=
      (ContinuousLinearMap.proj i : ((j : Fin d) → ℝ) →L[ℝ] ℝ).hasFDerivAt
    have h2 : HasDerivAt (fun t : ℝ => t ^ 2) (2 * X i) (X i) := by
      simpa using hasDerivAt_pow 2 (X i)
    exact h2.comp_hasFDerivAt X h1
  exact HasFDerivAt.sum fun i _ => h i

/-- C9: the terminal anchor `g_fn` is the sum of the squares of the entries
of `X` (its one-element output read as a scalar), and its gradient helper
`dg_fn` — the pullback of the unit cotangent through the derivative of
`g_fn` — equals `2·X`. -/
theorem terminal_condition_and_gradient {d : ℕ} (X : Fin d → ℝ) :
    g_fn X = ∑ j, X j ^ 2 ∧ dg_fn X = fun i => 2 * X i := by
  refine ⟨rfl, ?_⟩
  funext i
  show fderiv ℝ g_fn X (Pi.single i 1) = 2 * X i
  rw [(g_fn_hasFDerivAt X).fderiv, ContinuousLinearMap.sum_apply]
  simp [Pi.single_apply, ContinuousLinearMap.proj_apply, mul_ite, Finset.sum_ite_eq]

lemma sse_map_map {α : Type} (l : List α) (f g : α → ℝ) :
    sum_square_error (l.map f) (l.map g) = (l.map fun a => (f a - g a) ^ 2).sum := by
  rw [sum_square_error, List.zip_map', List.map_map]
  rfl

lemma sse_flatten {α : Type} (f g : α → List ℝ) (h : ∀ a, (f a).length = (g a).length) :
    ∀ l : List α, sum_square_error (l.map f).flatten (l.map g).flatten
      = (l.map fun a => sum_square_error (f a) (g a)).sum := by
  intro l
  induction l with
  | nil => rfl
  | cons a t ih =>
    show sum_square_error (f a ++ (t.map f).flatten) (g a ++ (t.map g).flatten) = _
    rw [sum_square_error, List.zip_append (h a), List.map_append, List.sum_append]
    show sum_square_error (f a) (g a)
        + sum_square_error (t.map f).flatten (t.map g).flatten = _
    rw [ih]
    rfl

lemma sse_ofFn {d : ℕ} (z w : Fin d → ℝ) :
    sum_square_error (List.ofFn z) (List.ofFn w) = ∑ j, (z j - w j) ^ 2 := by
  rw [List.ofFn_eq_map, List.ofFn_eq_map, sse_map_map, ← List.ofFn_eq_map, List.sum_ofFn]

lemma sum_map_add {α : Type} (l : List α) (f g : α → ℝ) :
    (l.map fun a => f a + g a).sum = (l.map f).sum + (l.map g).sum := by
  induction l with
  | nil => simp
  | cons a t ih => simp only [List.map_cons, List.sum_cons, ih]; ring

/-- C2: the training loss of `train_step` equals the sum — not the average —
over all batch members and all time steps of the squared error between
`y1_tilde` and `y1`, plus, per batch member, the squared error between the
final `Y` and `g_fn` at the final `X`, plus the squared error (summed over
the dimension) between the final `Z` and `dg_fn` at the final `X`. -/
theorem loss_is_sum_over_batch_and_time {d : ℕ} (C : Config d)
    (x0s : List (Fin d → ℝ)) (t0 dt : ℝ) (N : ℕ) (key : ℕ) :
    loss_fn C x0s t0 dt N key
      = (x0s.map fun x0 =>
          (((NeuralFBSDE.call C x0 t0 dt N key).2).map fun o => (o.y_tilde - o.y1) ^ 2).sum
          + ((NeuralFBSDE.call C x0 t0 dt N key).1.Y
              - g_fn (NeuralFBSDE.call C x0 t0 dt N key).1.X) ^ 2
          + ∑ j, ((NeuralFBSDE.call C x0 t0 dt N key).1.Z j
              - dg_fn (NeuralFBSDE.call C x0 t0 dt N key).1.X j) ^ 2).sum := by
  simp only [loss_fn, batchedCall, List.map_map, Function.comp_def]
  rw [sse_flatten (fun x0 => (NeuralFBSDE.call C x0 t0 dt N key).2.map StepOut.y_tilde)
      (fun x0 => (NeuralFBSDE.call C x0 t0 dt N key).2.map StepOut.y1)
      (fun a => by rw [List.length_map, List.length_map]) x0s]
  rw [sse_flatten (fun x0 => List.ofFn (NeuralFBSDE.call C x0 t0 dt N key).1.Z)
      (fun x0 => List.ofFn (dg_fn (NeuralFBSDE.call C x0 t0 dt N key).1.X))
      (fun a => by rw [List.length_ofFn, List.length_ofFn]) x0s]
  simp only [sse_map_map, sse_ofFn]
  rw [sum_map_add, sum_map_add]
